import Mathlib

set_option maxRecDepth 8000

/-!
Verification of the early-boot memory subsystem of the D3OS kernel.

The development shallowly embeds, from the source:
* `setup_page_map` and `paging_pointer` (src/boot.rs): the recursive
  page-table walk that sets the user-accessible bit on every present entry;
* the memory-map region selection in `start` (src/boot.rs): three
  prioritized boot-information formats, picking a largest area;
* `NvramAllocator.allocate` and `NvramAllocator.deallocate`
  (os/kernel/src/memory/nvram_allocator.rs), over a first-fit free-list
  heap modelled from the specification (the heap itself comes from the
  external linked_list_allocator crate);
* `convert_syscall_codes_to_result` (os/library/syscall/src/lib.rs).

Physical memory is modelled as a total function from byte addresses to
64-bit entry values; machine words are natural numbers (the operations
performed, bitwise or/and, never overflow 64 bits on 64-bit inputs).
-/

/-! ## Page-table walker (src/boot.rs, `setup_page_map` / `paging_pointer`) -/

/-- Byte-addressed physical memory holding 64-bit page-table entries. -/
def Mem : Type := Nat → Nat

/-- Store value `v` at address `a`. -/
def writeMem (m : Mem) (a v : Nat) : Mem := fun x => if x = a then v else m x

/-- All bits of `x86_64::structures::paging::PageTableFlags`:
bits 0 to 11 and bits 52 to 63. `from_bits_truncate` masks with this. -/
def PT_FLAGS_MASK : Nat := 0xFFF0000000000FFF

/-- `PageTableFlags::USER_ACCESSIBLE`, bit 2. -/
def USER_ACCESSIBLE : Nat := 4

/-- `PageTableFlags::HUGE_PAGE`, bit 7. -/
def HUGE_PAGE : Nat := 128

/-- `paging_pointer` from src/boot.rs: the frame address encoded in an
entry, flag bits masked off. -/
def paging_pointer (entry : Nat) : Nat := entry &&& 0x000ffffffffff000

/-- One iteration of the `for i in 0..512` loop body of `setup_page_map`:
read the entry, skip it when absent (zero), otherwise set the
user-accessible flag and write the entry back, then recurse into the
child table when a child walk is in effect (`level > 1`) and the entry is
not a huge page. -/
def stepEntry (child : Option (Mem → Nat → Mem)) (map i : Nat) (m : Mem) : Mem :=
  if m (map + 8 * i) = 0 then m
  else
    match child with
    | none =>
        writeMem m (map + 8 * i)
          (m (map + 8 * i) ||| ((m (map + 8 * i) &&& PT_FLAGS_MASK) ||| USER_ACCESSIBLE))
    | some f =>
        if ((m (map + 8 * i) &&& PT_FLAGS_MASK) ||| USER_ACCESSIBLE) &&& HUGE_PAGE = 0 then
          f (writeMem m (map + 8 * i)
              (m (map + 8 * i) ||| ((m (map + 8 * i) &&& PT_FLAGS_MASK) ||| USER_ACCESSIBLE)))
            (paging_pointer (m (map + 8 * i)))
        else
          writeMem m (map + 8 * i)
            (m (map + 8 * i) ||| ((m (map + 8 * i) &&& PT_FLAGS_MASK) ||| USER_ACCESSIBLE))

/-- The loop of `setup_page_map` over the remaining entry indices. -/
def procEntries (child : Option (Mem → Nat → Mem)) (map : Nat) : List Nat → Mem → Mem
  | [], m => m
  | i :: rest, m => procEntries child map rest (stepEntry child map i m)

/-- `setup_page_map` from src/boot.rs, by recursion on the level: at
`level <= 1` the test `level > 1` fails and no recursion happens; at
greater levels the walk recurses with `level - 1`. -/
def setup_page_map : Nat → Mem → Nat → Mem
  | 0 => fun mem map => procEntries none map (List.range 512) mem
  | 1 => fun mem map => procEntries none map (List.range 512) mem
  | n + 2 => fun mem map => procEntries (some (setup_page_map (n + 1))) map (List.range 512) mem

/-! ### Bitwise helper lemmas -/

lemma or_absorb_and_or (x M u : Nat) : x ||| ((x &&& M) ||| u) = x ||| u := by
  apply Nat.eq_of_testBit_eq
  intro j
  simp only [Nat.testBit_lor, Nat.testBit_land]
  cases hx : x.testBit j <;> simp

lemma testBit_four (j : Nat) (hj : j ≠ 2) : Nat.testBit 4 j = false := by
  match j with
  | 0 => decide
  | 1 => decide
  | 2 => exact absurd rfl hj
  | k + 3 =>
    apply Nat.testBit_eq_false_of_lt
    calc (4 : Nat) < 2 ^ 3 := by decide
    _ ≤ 2 ^ (k + 3) := Nat.pow_le_pow_right (by decide) (by omega)

lemma testBit_or_four_two (x : Nat) : (x ||| 4).testBit 2 = true := by
  simp only [Nat.testBit_lor]
  have h4 : Nat.testBit 4 2 = true := by decide
  simp [h4]

lemma testBit_or_four_ne (x j : Nat) (hj : j ≠ 2) :
    (x ||| 4).testBit j = x.testBit j := by
  simp [Nat.testBit_lor, testBit_four j hj]

lemma or_four_ne_zero (x : Nat) : x ||| 4 ≠ 0 := by
  intro h
  have := testBit_or_four_two x
  rw [h] at this
  simp [Nat.zero_testBit] at this

lemma or_four_idem (x : Nat) : (x ||| 4) ||| 4 = x ||| 4 := by
  rw [Nat.lor_assoc]
  norm_num

lemma and_or_four {C : Nat} (hC : C.testBit 2 = false) (x : Nat) :
    (x ||| 4) &&& C = x &&& C := by
  apply Nat.eq_of_testBit_eq
  intro j
  simp only [Nat.testBit_land, Nat.testBit_lor]
  by_cases hj : j = 2
  · subst hj; simp [hC]
  · simp [testBit_four j hj]

lemma paging_pointer_or_four (x : Nat) :
    paging_pointer (x ||| 4) = paging_pointer x := by
  unfold paging_pointer
  exact and_or_four (by decide) x

lemma huge_test_or_four (x : Nat) :
    (((x ||| 4) &&& PT_FLAGS_MASK) ||| USER_ACCESSIBLE) &&& HUGE_PAGE
      = ((x &&& PT_FLAGS_MASK) ||| USER_ACCESSIBLE) &&& HUGE_PAGE := by
  apply Nat.eq_of_testBit_eq
  intro j
  simp only [Nat.testBit_land, Nat.testBit_lor]
  by_cases hj : j = 2
  · subst hj
    have : Nat.testBit HUGE_PAGE 2 = false := by decide
    simp [this, USER_ACCESSIBLE]
  · simp [testBit_four j hj, USER_ACCESSIBLE]

/-! ### The evolution relation

Every write performed by the walk replaces an entry value `v` by
`v ||| USER_ACCESSIBLE` and only when `v` is nonzero; `Evolves m m1` is the
resulting relation between a memory and any later state of the walk. -/

def Evolves (m m1 : Mem) : Prop :=
  ∀ a, m1 a = m a ∨ (m a ≠ 0 ∧ m1 a = m a ||| USER_ACCESSIBLE)

lemma Evolves.refl (m : Mem) : Evolves m m := fun _ => Or.inl rfl

lemma Evolves.trans {m1 m2 m3 : Mem} (h12 : Evolves m1 m2) (h23 : Evolves m2 m3) :
    Evolves m1 m3 := by
  intro a
  rcases h23 a with h | ⟨hne, h⟩
  · rw [h]; exact h12 a
  · rcases h12 a with h2 | ⟨hne2, h2⟩
    · rw [h, h2]
      right
      constructor
      · rw [← h2]; exact hne
      · rfl
    · right
      refine ⟨hne2, ?_⟩
      rw [h, h2]
      exact or_four_idem _

lemma evolves_ne_zero {m m1 : Mem} (h : Evolves m m1) {a : Nat} (ha : m a ≠ 0) :
    m1 a ≠ 0 := by
  rcases h a with h1 | ⟨_, h1⟩
  · rw [h1]; exact ha
  · rw [h1]; exact or_four_ne_zero _

lemma evolves_zero {m m1 : Mem} (h : Evolves m m1) {a : Nat} (ha : m a = 0) :
    m1 a = 0 := by
  rcases h a with h1 | ⟨hne, _⟩
  · rw [h1]; exact ha
  · exact absurd ha hne

lemma evolves_bit2 {m m1 : Mem} (h : Evolves m m1) {a : Nat}
    (ha : (m a).testBit 2 = true) : (m1 a).testBit 2 = true := by
  rcases h a with h1 | ⟨_, h1⟩
  · rw [h1]; exact ha
  · rw [h1]; exact testBit_or_four_two _

lemma evolves_write {m : Mem} {a : Nat} (ha : m a ≠ 0) :
    Evolves m (writeMem m a ((m a) ||| (((m a) &&& PT_FLAGS_MASK) ||| USER_ACCESSIBLE))) := by
  intro b
  unfold writeMem
  by_cases hb : b = a
  · subst hb
    simp only [if_pos rfl]
    right
    exact ⟨ha, or_absorb_and_or _ _ _⟩
  · simp [hb]

/-- Conditions under which the optional child walk is well behaved. -/
def ChildEvolves (child : Option (Mem → Nat → Mem)) : Prop :=
  ∀ f, child = some f → ∀ m r, Evolves m (f m r)

lemma stepEntry_evolves {child : Option (Mem → Nat → Mem)} (hce : ChildEvolves child)
    (map i : Nat) (m : Mem) : Evolves m (stepEntry child map i m) := by
  unfold stepEntry
  by_cases h0 : m (map + 8 * i) = 0
  · rw [if_pos h0]
    exact Evolves.refl m
  · rw [if_neg h0]
    cases child with
    | none => exact evolves_write h0
    | some f =>
      show Evolves m
        (if ((m (map + 8 * i) &&& PT_FLAGS_MASK) ||| USER_ACCESSIBLE) &&& HUGE_PAGE = 0 then
          f (writeMem m (map + 8 * i)
              (m (map + 8 * i) ||| ((m (map + 8 * i) &&& PT_FLAGS_MASK) ||| USER_ACCESSIBLE)))
            (paging_pointer (m (map + 8 * i)))
        else
          writeMem m (map + 8 * i)
            (m (map + 8 * i) ||| ((m (map + 8 * i) &&& PT_FLAGS_MASK) ||| USER_ACCESSIBLE)))
      by_cases hh : ((m (map + 8 * i) &&& PT_FLAGS_MASK) ||| USER_ACCESSIBLE) &&& HUGE_PAGE = 0
      · rw [if_pos hh]
        exact (evolves_write h0).trans (hce f rfl _ _)
      · rw [if_neg hh]
        exact evolves_write h0

lemma procEntries_evolves {child : Option (Mem → Nat → Mem)} (hce : ChildEvolves child)
    (map : Nat) : ∀ (l : List Nat) (m : Mem), Evolves m (procEntries child map l m) := by
  intro l
  induction l with
  | nil => intro m; exact Evolves.refl m
  | cons i rest ih =>
    intro m
    exact (stepEntry_evolves hce map i m).trans (ih (stepEntry child map i m))

lemma setup_evolves : ∀ (level : Nat) (m : Mem) (map : Nat),
    Evolves m (setup_page_map level m map) := by
  intro level
  induction level using Nat.strong_induction_on with
  | _ level ih =>
    match level with
    | 0 =>
      intro m map
      exact procEntries_evolves (fun f hf => by cases hf) map _ m
    | 1 =>
      intro m map
      exact procEntries_evolves (fun f hf => by cases hf) map _ m
    | n + 2 =>
      intro m map
      refine procEntries_evolves ?_ map _ m
      intro f hf m1 r
      cases hf
      exact ih (n + 1) (by omega) m1 r

lemma setup_child_evolves (n : Nat) : ChildEvolves (some (setup_page_map (n + 1))) := by
  intro f hf m r
  cases hf
  exact setup_evolves (n + 1) m r

lemma writeMem_same (m : Mem) (a v : Nat) : writeMem m a v a = v := by
  unfold writeMem
  rw [if_pos rfl]

lemma writeMem_other (m : Mem) (a v b : Nat) (h : b ≠ a) : writeMem m a v b = m b := by
  unfold writeMem
  rw [if_neg h]

/-- Under `Evolves mem m`, the walk observes at a nonzero initial entry a
nonzero current value with the same frame address and the same huge-page
test, and writing the flag-updated value amounts to setting bit 2. -/
lemma evolves_entry_cases {mem m : Mem} (h : Evolves mem m) (a : Nat) (hx : mem a ≠ 0) :
    m a ≠ 0 ∧
    m a ||| ((m a &&& PT_FLAGS_MASK) ||| USER_ACCESSIBLE) = m a ||| USER_ACCESSIBLE ∧
    ((m a &&& PT_FLAGS_MASK) ||| USER_ACCESSIBLE) &&& HUGE_PAGE
      = ((mem a &&& PT_FLAGS_MASK) ||| USER_ACCESSIBLE) &&& HUGE_PAGE ∧
    paging_pointer (m a) = paging_pointer (mem a) := by
  rcases h a with h1 | ⟨_, h1⟩
  · rw [h1]
    exact ⟨hx, or_absorb_and_or _ _ _, rfl, rfl⟩
  · rw [h1]
    refine ⟨or_four_ne_zero _, or_absorb_and_or _ _ _, ?_, ?_⟩
    · exact huge_test_or_four (mem a)
    · exact paging_pointer_or_four (mem a)

/-! ### Slots visited by the walk

`VisitedSlot mem level root a` holds when `a` is the address of an entry
that the walk started at table `root` with the given `level` reads and
finds nonzero: either directly one of the 512 slots of `root`, or a slot
reached through a present, non-huge entry of `root` when `level > 1`,
recursing into the frame address of that entry with `level - 1`. -/
inductive VisitedSlot (mem : Mem) : Nat → Nat → Nat → Prop where
  | here (level root i : Nat) (hi : i < 512) (hne : mem (root + 8 * i) ≠ 0) :
      VisitedSlot mem level root (root + 8 * i)
  | child (n root i a : Nat) (hi : i < 512) (hne : mem (root + 8 * i) ≠ 0)
      (hhuge : ((mem (root + 8 * i) &&& PT_FLAGS_MASK) ||| USER_ACCESSIBLE) &&& HUGE_PAGE = 0)
      (hrec : VisitedSlot mem (n + 1) (paging_pointer (mem (root + 8 * i))) a) :
      VisitedSlot mem (n + 2) root a

/-- `PresentLeaf mem level root a` holds when `a` is the address of a
present (nonzero) entry of a level-1 table reached from `root` through a
chain of present, non-huge intermediate entries: a present leaf mapping at
the final page-table level. -/
inductive PresentLeaf (mem : Mem) : Nat → Nat → Nat → Prop where
  | leaf (root i : Nat) (hi : i < 512) (hne : mem (root + 8 * i) ≠ 0) :
      PresentLeaf mem 1 root (root + 8 * i)
  | step (n root i a : Nat) (hi : i < 512) (hne : mem (root + 8 * i) ≠ 0)
      (hhuge : ((mem (root + 8 * i) &&& PT_FLAGS_MASK) ||| USER_ACCESSIBLE) &&& HUGE_PAGE = 0)
      (hrec : PresentLeaf mem (n + 1) (paging_pointer (mem (root + 8 * i))) a) :
      PresentLeaf mem (n + 2) root a

lemma presentLeaf_visited {mem : Mem} {level root a : Nat}
    (h : PresentLeaf mem level root a) : VisitedSlot mem level root a := by
  induction h with
  | leaf root i hi hne => exact VisitedSlot.here 1 root i hi hne
  | step n root i a hi hne hhuge _ ih => exact VisitedSlot.child n root i a hi hne hhuge ih

/-- After one loop iteration at an entry that is currently nonzero, bit 2
of that entry is set. -/
lemma stepEntry_sets_bit2 {child : Option (Mem → Nat → Mem)} (hce : ChildEvolves child)
    (map i : Nat) (m : Mem) (h0 : m (map + 8 * i) ≠ 0) :
    ((stepEntry child map i m) (map + 8 * i)).testBit 2 = true := by
  unfold stepEntry
  rw [if_neg h0]
  have hw : (writeMem m (map + 8 * i)
      (m (map + 8 * i) ||| ((m (map + 8 * i) &&& PT_FLAGS_MASK) ||| USER_ACCESSIBLE))
      (map + 8 * i)).testBit 2 = true := by
    rw [writeMem_same, or_absorb_and_or]
    exact testBit_or_four_two _
  cases child with
  | none => exact hw
  | some f =>
    show (Nat.testBit
      ((if ((m (map + 8 * i) &&& PT_FLAGS_MASK) ||| USER_ACCESSIBLE) &&& HUGE_PAGE = 0 then
          f (writeMem m (map + 8 * i)
              (m (map + 8 * i) ||| ((m (map + 8 * i) &&& PT_FLAGS_MASK) ||| USER_ACCESSIBLE)))
            (paging_pointer (m (map + 8 * i)))
        else
          writeMem m (map + 8 * i)
            (m (map + 8 * i) ||| ((m (map + 8 * i) &&& PT_FLAGS_MASK) ||| USER_ACCESSIBLE)))
        (map + 8 * i)) 2) = true
    by_cases hh : ((m (map + 8 * i) &&& PT_FLAGS_MASK) ||| USER_ACCESSIBLE) &&& HUGE_PAGE = 0
    · rw [if_pos hh]
      exact evolves_bit2 (hce f rfl _ _) hw
    · rw [if_neg hh]
      exact hw

lemma stepEntry_zero {child : Option (Mem → Nat → Mem)} {map i : Nat} {m : Mem}
    (h0 : m (map + 8 * i) = 0) : stepEntry child map i m = m := by
  unfold stepEntry
  rw [if_pos h0]

lemma stepEntry_none_eq {map i : Nat} {m : Mem} (h0 : m (map + 8 * i) ≠ 0) :
    stepEntry none map i m =
      writeMem m (map + 8 * i)
        (m (map + 8 * i) ||| ((m (map + 8 * i) &&& PT_FLAGS_MASK) ||| USER_ACCESSIBLE)) := by
  unfold stepEntry
  rw [if_neg h0]

lemma stepEntry_some_eq {f : Mem → Nat → Mem} {map i : Nat} {m : Mem}
    (h0 : m (map + 8 * i) ≠ 0)
    (hh : ((m (map + 8 * i) &&& PT_FLAGS_MASK) ||| USER_ACCESSIBLE) &&& HUGE_PAGE = 0) :
    stepEntry (some f) map i m =
      f (writeMem m (map + 8 * i)
          (m (map + 8 * i) ||| ((m (map + 8 * i) &&& PT_FLAGS_MASK) ||| USER_ACCESSIBLE)))
        (paging_pointer (m (map + 8 * i))) := by
  unfold stepEntry
  rw [if_neg h0]
  show (if ((m (map + 8 * i) &&& PT_FLAGS_MASK) ||| USER_ACCESSIBLE) &&& HUGE_PAGE = 0 then
      f (writeMem m (map + 8 * i)
          (m (map + 8 * i) ||| ((m (map + 8 * i) &&& PT_FLAGS_MASK) ||| USER_ACCESSIBLE)))
        (paging_pointer (m (map + 8 * i)))
    else
      writeMem m (map + 8 * i)
        (m (map + 8 * i) ||| ((m (map + 8 * i) &&& PT_FLAGS_MASK) ||| USER_ACCESSIBLE))) = _
  rw [if_pos hh]

lemma stepEntry_some_eq_huge {f : Mem → Nat → Mem} {map i : Nat} {m : Mem}
    (h0 : m (map + 8 * i) ≠ 0)
    (hh : ¬ ((m (map + 8 * i) &&& PT_FLAGS_MASK) ||| USER_ACCESSIBLE) &&& HUGE_PAGE = 0) :
    stepEntry (some f) map i m =
      writeMem m (map + 8 * i)
        (m (map + 8 * i) ||| ((m (map + 8 * i) &&& PT_FLAGS_MASK) ||| USER_ACCESSIBLE)) := by
  unfold stepEntry
  rw [if_neg h0]
  show (if ((m (map + 8 * i) &&& PT_FLAGS_MASK) ||| USER_ACCESSIBLE) &&& HUGE_PAGE = 0 then
      f (writeMem m (map + 8 * i)
          (m (map + 8 * i) ||| ((m (map + 8 * i) &&& PT_FLAGS_MASK) ||| USER_ACCESSIBLE)))
        (paging_pointer (m (map + 8 * i)))
    else
      writeMem m (map + 8 * i)
        (m (map + 8 * i) ||| ((m (map + 8 * i) &&& PT_FLAGS_MASK) ||| USER_ACCESSIBLE))) = _
  rw [if_neg hh]

lemma procEntries_cons (child : Option (Mem → Nat → Mem)) (map j : Nat) (rest : List Nat)
    (m : Mem) :
    procEntries child map (j :: rest) m = procEntries child map rest (stepEntry child map j m) :=
  rfl

/-- If a listed index points at an entry that is nonzero in the initial
memory, or the child walk invoked from such an entry sets bit 2 at `a`,
then the whole loop sets bit 2 at `a`. -/
lemma procEntries_hits {mem : Mem} {child : Option (Mem → Nat → Mem)}
    (hce : ChildEvolves child) (map : Nat) :
    ∀ (l : List Nat) (i a : Nat), i ∈ l →
      ((a = map + 8 * i ∧ mem a ≠ 0) ∨
        (∃ f, child = some f ∧ mem (map + 8 * i) ≠ 0 ∧
          ((mem (map + 8 * i) &&& PT_FLAGS_MASK) ||| USER_ACCESSIBLE) &&& HUGE_PAGE = 0 ∧
          ∀ m1, Evolves mem m1 →
            ((f m1 (paging_pointer (mem (map + 8 * i)))) a).testBit 2 = true)) →
      ∀ m, Evolves mem m → ((procEntries child map l m) a).testBit 2 = true := by
  intro l
  induction l with
  | nil =>
    intro i a hi _
    simp at hi
  | cons j rest ih =>
    intro i a hi htgt m hm
    rw [procEntries_cons]
    by_cases hij : i = j
    · subst hij
      have hstep : ((stepEntry child map i m) a).testBit 2 = true := by
        rcases htgt with ⟨ha, hax⟩ | ⟨f, hcf, hx, hhuge, hcont⟩
        · subst ha
          exact stepEntry_sets_bit2 hce map i m (evolves_entry_cases hm _ hax).1
        · subst hcf
          obtain ⟨hv, hwval, hhtest, hpp⟩ := evolves_entry_cases hm (map + 8 * i) hx
          rw [stepEntry_some_eq hv (hhtest.trans hhuge), hpp]
          exact hcont _ (hm.trans (evolves_write hv))
      exact evolves_bit2 (procEntries_evolves hce map rest _) hstep
    · have hirest : i ∈ rest := by
        rcases List.mem_cons.mp hi with h | h
        · exact absurd h hij
        · exact h
      exact ih i a hirest htgt (stepEntry child map j m)
        (hm.trans (stepEntry_evolves hce map j m))

/-- Every slot the walk visits and finds nonzero ends with bit 2 set. -/
lemma visited_bit2 {mem : Mem} {level root a : Nat}
    (h : VisitedSlot mem level root a) :
    ∀ m, Evolves mem m → ((setup_page_map level m root) a).testBit 2 = true := by
  induction h with
  | here level root i hi hne =>
    intro m hm
    match level with
    | 0 =>
      exact @procEntries_hits mem none (fun f hf => by cases hf) root (List.range 512) i _
        (List.mem_range.mpr hi) (Or.inl ⟨rfl, hne⟩) m hm
    | 1 =>
      exact @procEntries_hits mem none (fun f hf => by cases hf) root (List.range 512) i _
        (List.mem_range.mpr hi) (Or.inl ⟨rfl, hne⟩) m hm
    | n + 2 =>
      exact procEntries_hits (setup_child_evolves n) root (List.range 512) i _
        (List.mem_range.mpr hi) (Or.inl ⟨rfl, hne⟩) m hm
  | child n root i a hi hne hhuge hrec ih =>
    intro m hm
    exact procEntries_hits (setup_child_evolves n) root (List.range 512) i a
      (List.mem_range.mpr hi)
      (Or.inr ⟨setup_page_map (n + 1), rfl, hne, hhuge, fun m1 hm1 => ih m1 hm1⟩) m hm

/-- The loop changes memory only at visited slots: a change is traced
either to the direct write at a listed slot whose initial entry is
nonzero, or to the child walk entered from such a slot that is not huge. -/
lemma procEntries_footprint {mem : Mem} {child : Option (Mem → Nat → Mem)}
    (hce : ChildEvolves child) (map level : Nat)
    (hdirect : ∀ i, i < 512 → mem (map + 8 * i) ≠ 0 →
      VisitedSlot mem level map (map + 8 * i))
    (hchild : ∀ f, child = some f → ∀ i, i < 512 → mem (map + 8 * i) ≠ 0 →
      ((mem (map + 8 * i) &&& PT_FLAGS_MASK) ||| USER_ACCESSIBLE) &&& HUGE_PAGE = 0 →
      ∀ m1, Evolves mem m1 → ∀ b, f m1 (paging_pointer (mem (map + 8 * i))) b ≠ m1 b →
        VisitedSlot mem level map b) :
    ∀ (l : List Nat), (∀ i ∈ l, i < 512) → ∀ m, Evolves mem m →
      ∀ b, procEntries child map l m b ≠ m b → VisitedSlot mem level map b := by
  intro l
  induction l with
  | nil =>
    intro _ m _ b hb
    exact absurd rfl hb
  | cons j rest ih =>
    intro hlt m hm b hb
    rw [procEntries_cons] at hb
    have hj512 : j < 512 := hlt j (List.mem_cons_self j rest)
    by_cases hstep : stepEntry child map j m b = m b
    · refine ih (fun i hi => hlt i (List.mem_cons_of_mem j hi)) (stepEntry child map j m)
        (hm.trans (stepEntry_evolves hce map j m)) b ?_
      rw [hstep]
      exact hb
    · by_cases h0 : m (map + 8 * j) = 0
      · rw [stepEntry_zero h0] at hstep
        exact absurd rfl hstep
      · have hx0 : mem (map + 8 * j) ≠ 0 := fun h => h0 (evolves_zero hm h)
        by_cases hbslot : b = map + 8 * j
        · subst hbslot
          exact hdirect j hj512 hx0
        · obtain ⟨hv, hwval, hhtest, hpp⟩ := evolves_entry_cases hm (map + 8 * j) hx0
          cases child with
          | none =>
            rw [stepEntry_none_eq h0, writeMem_other _ _ _ _ hbslot] at hstep
            exact absurd rfl hstep
          | some f =>
            by_cases hh :
                ((m (map + 8 * j) &&& PT_FLAGS_MASK) ||| USER_ACCESSIBLE) &&& HUGE_PAGE = 0
            · rw [stepEntry_some_eq h0 hh] at hstep
              refine hchild f rfl j hj512 hx0 (hhtest.symm.trans hh)
                (writeMem m (map + 8 * j)
                  (m (map + 8 * j) |||
                    ((m (map + 8 * j) &&& PT_FLAGS_MASK) ||| USER_ACCESSIBLE)))
                (hm.trans (evolves_write h0)) b ?_
              rw [← hpp]
              intro he
              apply hstep
              rw [he]
              exact writeMem_other _ _ _ _ hbslot
            · rw [stepEntry_some_eq_huge h0 hh, writeMem_other _ _ _ _ hbslot] at hstep
              exact absurd rfl hstep

/-- The walk changes memory only at visited slots. -/
lemma setup_footprint : ∀ (level : Nat) (mem m : Mem) (root : Nat), Evolves mem m →
    ∀ b, setup_page_map level m root b ≠ m b → VisitedSlot mem level root b := by
  intro level
  induction level using Nat.strong_induction_on with
  | _ level ih =>
    match level with
    | 0 =>
      intro mem m root hm b hb
      exact procEntries_footprint (fun f hf => Option.noConfusion hf) root 0
        (fun i hi hne => VisitedSlot.here 0 root i hi hne)
        (fun f hf => Option.noConfusion hf)
        (List.range 512) (fun i hi => List.mem_range.mp hi) m hm b hb
    | 1 =>
      intro mem m root hm b hb
      exact procEntries_footprint (fun f hf => Option.noConfusion hf) root 1
        (fun i hi hne => VisitedSlot.here 1 root i hi hne)
        (fun f hf => Option.noConfusion hf)
        (List.range 512) (fun i hi => List.mem_range.mp hi) m hm b hb
    | n + 2 =>
      intro mem m root hm b hb
      refine procEntries_footprint (setup_child_evolves n) root (n + 2)
        (fun i hi hne => VisitedSlot.here (n + 2) root i hi hne) ?_
        (List.range 512) (fun i hi => List.mem_range.mp hi) m hm b hb
      intro f hf i hi hne hhuge m1 hm1 c hc
      cases hf
      exact VisitedSlot.child n root i c hi hne hhuge
        (ih (n + 1) (by omega) mem m1 (paging_pointer (mem (root + 8 * i))) hm1 c hc)

/-- Claim C1: after the page-table permission propagator (`setup_page_map`)
runs on a table with any mix of present (nonzero), absent (zero) and huge
entries, every present non-huge leaf reachable from the root has the
user-accessible bit (bit 2) set; no absent entry was written (zero entries
stay zero, in fact addresses holding zero are untouched); and every entry
is unchanged except possibly for that one bit: the frame address
(`paging_pointer`) and every flag bit other than bit 2 are preserved. -/
theorem setup_page_map_correct (level : Nat) (mem : Mem) (root : Nat) :
    (∀ a, mem a = 0 → setup_page_map level mem root a = mem a) ∧
    (∀ a, setup_page_map level mem root a = mem a ∨
      setup_page_map level mem root a = mem a ||| USER_ACCESSIBLE) ∧
    (∀ a, paging_pointer (setup_page_map level mem root a) = paging_pointer (mem a)) ∧
    (∀ a j, j ≠ 2 → (setup_page_map level mem root a).testBit j = (mem a).testBit j) ∧
    (∀ a, PresentLeaf mem level root a →
      (setup_page_map level mem root a).testBit 2 = true) := by
  have hev := setup_evolves level mem root
  refine ⟨?_, ?_, ?_, ?_, ?_⟩
  · intro a ha
    rw [evolves_zero hev ha, ha]
  · intro a
    rcases hev a with h | ⟨_, h⟩
    · exact Or.inl h
    · exact Or.inr h
  · intro a
    rcases hev a with h | ⟨_, h⟩
    · rw [h]
    · rw [h]
      exact paging_pointer_or_four _
  · intro a j hj
    rcases hev a with h | ⟨_, h⟩
    · rw [h]
    · rw [h]
      exact testBit_or_four_ne _ j hj
  · intro a hp
    exact visited_bit2 (presentLeaf_visited hp) mem (Evolves.refl mem)

theorem setup_page_map_correct_witness :
    (setup_page_map 1 (fun a => if a = 0 then 3 else 0) 0 (0 + 8 * 0)).testBit 2 = true :=
  (setup_page_map_correct 1 (fun a => if a = 0 then 3 else 0) 0).2.2.2.2 (0 + 8 * 0)
    (PresentLeaf.leaf 0 0 (by decide) (by decide))

/-- Claim C3: the walk only changes memory at visited slots, i.e. at
entries `root + 8 * i` with `0 <= i < 512` of the root table or of tables
reached by recursing, through present (nonzero) non-huge entries with
`level > 1` only, into the frame address of the entry with the flag bits
masked off (`paging_pointer`) at `level - 1`; at `level = 1` the
recursion has bottomed out, so only the immediate 512 slots of the table
itself are visited; and at `level >= 2` every visited slot is either an
immediate slot or one visited by the child walk of a present non-huge
entry (a huge-page entry is a leaf, never recursed into). The walk is a
total function (structural recursion on `level`), so it terminates. -/
theorem setup_page_map_structure (level : Nat) (mem : Mem) (root : Nat) :
    (∀ a, setup_page_map level mem root a ≠ mem a → VisitedSlot mem level root a) ∧
    (∀ r a, VisitedSlot mem 1 r a → ∃ i, i < 512 ∧ a = r + 8 * i ∧ mem a ≠ 0) ∧
    (∀ n r a, VisitedSlot mem (n + 2) r a →
      (∃ i, i < 512 ∧ a = r + 8 * i ∧ mem a ≠ 0) ∨
      (∃ i, i < 512 ∧ mem (r + 8 * i) ≠ 0 ∧
        ((mem (r + 8 * i) &&& PT_FLAGS_MASK) ||| USER_ACCESSIBLE) &&& HUGE_PAGE = 0 ∧
        VisitedSlot mem (n + 1) (paging_pointer (mem (r + 8 * i))) a)) := by
  refine ⟨?_, ?_, ?_⟩
  · intro a hb
    exact setup_footprint level mem mem root (Evolves.refl mem) a hb
  · intro r a h
    cases h with
    | here _ _ i hi hne => exact ⟨i, hi, rfl, hne⟩
  · intro n r a h
    cases h with
    | here _ _ i hi hne => exact Or.inl ⟨i, hi, rfl, hne⟩
    | child _ _ i _ hi hne hhuge hrec => exact Or.inr ⟨i, hi, hne, hhuge, hrec⟩

theorem setup_page_map_structure_witness :
    ∃ i, i < 512 ∧ (0 + 8 * 0 : Nat) = 0 + 8 * i ∧
      (fun a => if a = 0 then (3 : Nat) else 0) (0 + 8 * 0) ≠ 0 :=
  (setup_page_map_structure 1 (fun a => if a = 0 then 3 else 0) 0).2.1 0 (0 + 8 * 0)
    (VisitedSlot.here 1 0 0 (by decide) (by decide))

/-! ## Boot memory descriptor reader (src/boot.rs, `start`, memory discovery) -/

/-- An EFI memory descriptor as consulted by the boot code: raw memory
type, physical start address, and page count (4096-byte pages). -/
structure EfiMemoryDescriptor where
  ty : Nat
  phys_start : Nat
  page_count : Nat
deriving DecidableEq

/-- A Multiboot2 memory area: base address, length in bytes, raw type. -/
structure MemoryArea where
  base_addr : Nat
  length : Nat
  typ : Nat
deriving DecidableEq

/-- `MemoryArea::size` of the multiboot2 crate. -/
def MemoryArea.size (a : MemoryArea) : Nat := a.length

/-- `MemoryArea::start_address` of the multiboot2 crate. -/
def MemoryArea.start_address (a : MemoryArea) : Nat := a.base_addr

/-- `MemoryArea::end_address` of the multiboot2 crate: base plus length,
an exclusive end. -/
def MemoryArea.end_address (a : MemoryArea) : Nat := a.base_addr + a.length

/-- Raw value of `uefi` `MemoryType::CONVENTIONAL`. -/
def MEMORY_TYPE_CONVENTIONAL : Nat := 7

/-- Raw value of `multiboot2` `MemoryAreaType::Available`. -/
def MEMORY_AREA_AVAILABLE : Nat := 1

/-- `uefi::table::boot::PAGE_SIZE`. -/
def EFI_PAGE_SIZE : Nat := 4096

/-- The boot-information tags consulted by `start` for memory discovery.
When boot services have not been exited, exiting them yields the
`efi_mmap_pre` map; that path requires the image-handle and system-table
tags to be present (`efi_ih64`, `efi_sdt64`), the pointers they hold to
be valid - `Handle::from_ptr` and `SystemTable::from_ptr` return `None`
on a null pointer, modelled by `efi_ih64_ptr_valid` and
`efi_sdt64_ptr_valid` - and `exit_boot_services` to succeed
(`exit_bs_ok`); each failure is a panic. -/
structure BootInfo where
  efi_bs_not_exited : Bool
  efi_ih64 : Bool
  efi_sdt64 : Bool
  efi_ih64_ptr_valid : Bool
  efi_sdt64_ptr_valid : Bool
  exit_bs_ok : Bool
  efi_mmap_pre : List EfiMemoryDescriptor
  memory_map_tag : Option (List MemoryArea)
  efi_memory_map_tag : Option (List EfiMemoryDescriptor)
deriving DecidableEq

/-- The scan pattern used by all three branches of `start`: the running
best begins as the first entry of the map (an empty map is a panic,
modelled as `none`), and each entry of the map replaces the best exactly
when it is eligible and strictly larger than the current best. -/
def pickArea {α : Type} (elig : α → Bool) (size : α → Nat) : List α → Option α
  | [] => none
  | first :: rest =>
      some ((first :: rest).foldl
        (fun best area => if elig area && decide (size area > size best) then area else best)
        first)

/-- The heap-region selection of `start`: the pre-exit firmware map has
priority, then the bootloader memory map, then the post-exit firmware
map; `none` models a panic. The pre-exit branch checks, in source order:
image-handle tag present, system-table tag present, `Handle::from_ptr`
succeeds, `SystemTable::from_ptr` succeeds, `exit_boot_services`
succeeds, memory map nonempty. -/
def start_heap_region (bi : BootInfo) : Option (Nat × Nat) :=
  if bi.efi_bs_not_exited = true then
    if bi.efi_ih64 = false then none
    else if bi.efi_sdt64 = false then none
    else if bi.efi_ih64_ptr_valid = false then none
    else if bi.efi_sdt64_ptr_valid = false then none
    else if bi.exit_bs_ok = false then none
    else
      match pickArea (fun a => a.ty == MEMORY_TYPE_CONVENTIONAL) (fun a => a.page_count)
          bi.efi_mmap_pre with
      | none => none
      | some a => some (a.phys_start, a.phys_start + a.page_count * EFI_PAGE_SIZE - 1)
  else
    match bi.memory_map_tag with
    | some areas =>
        match pickArea (fun a => a.typ == MEMORY_AREA_AVAILABLE) MemoryArea.size areas with
        | none => none
        | some a => some (a.start_address, a.end_address)
    | none =>
        match bi.efi_memory_map_tag with
        | some descs =>
            match pickArea (fun a => a.ty == MEMORY_TYPE_CONVENTIONAL)
                (fun a => a.page_count) descs with
            | none => none
            | some a => some (a.phys_start, a.phys_start + a.page_count * 4096 - 1)
        | none => none

/-- `multiboot2::MAGIC`. -/
def MULTIBOOT2_MAGIC : Nat := 0x36d76289

/-- The memory-discovery prefix of `start`: validate the multiboot2 magic,
load the boot information (`none` models a failing load), then select the
heap region; a `none` result is a panic halting kernel bring-up. -/
def start_boot_phase (magic : Nat) (boot_info : Option BootInfo) : Option (Nat × Nat) :=
  if magic ≠ MULTIBOOT2_MAGIC then none
  else
    match boot_info with
    | none => none
    | some bi => start_heap_region bi

/-- What the scan actually selects: an element of the map that
upper-bounds the size of every eligible entry, is preceded only by
strictly smaller eligible entries, and is either itself eligible or the
first entry of the map. -/
def ChosenFrom {α : Type} (elig : α → Bool) (size : α → Nat) (l : List α) (r : α) : Prop :=
  (∀ a ∈ l, elig a = true → size a ≤ size r) ∧
  (∃ l1 l2, l = l1 ++ r :: l2 ∧ ∀ a ∈ l1, elig a = true → size a < size r) ∧
  (elig r = true ∨ l.head? = some r)

lemma foldl_pick_spec {α : Type} (elig : α → Bool) (size : α → Nat) :
    ∀ (l : List α) (best : α),
      (l.foldl (fun b a => if elig a && decide (size a > size b) then a else b) best = best ∧
        ∀ a ∈ l, elig a = true → size a ≤ size best) ∨
      (∃ r l1 l2,
        l.foldl (fun b a => if elig a && decide (size a > size b) then a else b) best = r ∧
        elig r = true ∧ size best < size r ∧ l = l1 ++ r :: l2 ∧
        (∀ a ∈ l1, elig a = true → size a < size r) ∧
        (∀ a ∈ l2, elig a = true → size a ≤ size r)) := by
  intro l
  induction l with
  | nil =>
    intro best
    exact Or.inl ⟨rfl, by simp⟩
  | cons x t ih =>
    intro best
    rw [List.foldl_cons]
    by_cases hx : elig x = true ∧ size best < size x
    · have hcond : (elig x && decide (size x > size best)) = true := by
        rw [hx.1, Bool.true_and, decide_eq_true_eq]
        exact hx.2
      rw [if_pos hcond]
      rcases ih x with ⟨heq, hall⟩ | ⟨r, t1, t2, heq, helig, hlt, hsplit, hpre, hpost⟩
      · refine Or.inr ⟨x, [], t, heq, hx.1, hx.2, by simp, by simp, ?_⟩
        intro a ha helig2
        exact hall a ha helig2
      · refine Or.inr ⟨r, x :: t1, t2, heq, helig, lt_trans hx.2 hlt,
          by rw [hsplit, List.cons_append], ?_, hpost⟩
        intro a ha helig2
        rcases List.mem_cons.mp ha with h | h
        · subst h
          exact hlt
        · exact hpre a h helig2
    · have hcond : (elig x && decide (size x > size best)) = false := by
        cases h : elig x with
        | false => rw [Bool.false_and]
        | true =>
          rw [Bool.true_and, decide_eq_false_iff_not]
          intro hlt2
          exact hx ⟨h, hlt2⟩
      have hxle : elig x = true → size x ≤ size best := by
        intro h
        by_contra hgt
        exact hx ⟨h, Nat.lt_of_not_le hgt⟩
      rw [if_neg (by rw [hcond]; exact Bool.false_ne_true)]
      rcases ih best with ⟨heq, hall⟩ | ⟨r, t1, t2, heq, helig, hlt, hsplit, hpre, hpost⟩
      · refine Or.inl ⟨heq, ?_⟩
        intro a ha helig2
        rcases List.mem_cons.mp ha with h | h
        · subst h
          exact hxle helig2
        · exact hall a h helig2
      · refine Or.inr ⟨r, x :: t1, t2, heq, helig, hlt,
          by rw [hsplit, List.cons_append], ?_, hpost⟩
        intro a ha helig2
        rcases List.mem_cons.mp ha with h | h
        · subst h
          exact lt_of_le_of_lt (hxle helig2) hlt
        · exact hpre a h helig2

lemma pickArea_chosen {α : Type} (elig : α → Bool) (size : α → Nat) (l : List α) (r : α)
    (h : pickArea elig size l = some r) : ChosenFrom elig size l r := by
  match l with
  | [] => cases h
  | first :: rest =>
    have hr : (first :: rest).foldl
        (fun b a => if elig a && decide (size a > size b) then a else b) first = r :=
      Option.some.inj h
    rcases foldl_pick_spec elig size (first :: rest) first with
      ⟨heq, hall⟩ | ⟨r2, l1, l2, heq, helig, hlt, hsplit, hpre, hpost⟩
    · have hrf : r = first := by rw [← hr, heq]
      subst hrf
      refine ⟨hall, ⟨[], rest, by simp, by simp⟩, Or.inr rfl⟩
    · have hrr : r2 = r := by rw [← hr, heq]
      subst hrr
      refine ⟨?_, ⟨l1, l2, hsplit, hpre⟩, Or.inl helig⟩
      intro a ha helig2
      rw [hsplit] at ha
      rcases List.mem_append.mp ha with h1 | h2
      · exact le_of_lt (hpre a h1 helig2)
      · rcases List.mem_cons.mp h2 with h3 | h3
        · subst h3
          exact le_refl _
        · exact hpost a h3 helig2

lemma pickArea_none_iff {α : Type} (elig : α → Bool) (size : α → Nat) (l : List α) :
    pickArea elig size l = none ↔ l = [] := by
  cases l with
  | nil => simp [pickArea]
  | cons x t => simp [pickArea]

/-- Claim C2 (amended): the reader selects its region from the
highest-priority format present (pre-exit firmware map, else bootloader
memory map, else post-exit firmware map). Within the chosen map the
running best starts as the first entry regardless of its type, and a
candidate replaces the best only when it is of the eligible type and
strictly larger, so the selected entry upper-bounds the sizes of all
eligible entries, only strictly smaller eligible entries precede it, and
among equal-size eligible entries the first-encountered one is kept; but
the selected entry itself is eligible only when some eligible entry is
strictly larger than the first entry - otherwise the first entry is
selected even if ineligible. -/
theorem start_heap_region_selection (bi : BootInfo) (s e : Nat)
    (h : start_heap_region bi = some (s, e)) :
    (bi.efi_bs_not_exited = true ∧ bi.efi_ih64 = true ∧ bi.efi_sdt64 = true ∧
      ∃ r, ChosenFrom (fun a => a.ty == MEMORY_TYPE_CONVENTIONAL) (fun a => a.page_count)
          bi.efi_mmap_pre r ∧
        s = r.phys_start ∧ e = r.phys_start + r.page_count * EFI_PAGE_SIZE - 1) ∨
    (bi.efi_bs_not_exited = false ∧
      ∃ areas r, bi.memory_map_tag = some areas ∧
        ChosenFrom (fun a => a.typ == MEMORY_AREA_AVAILABLE) MemoryArea.size areas r ∧
        s = r.start_address ∧ e = r.end_address) ∨
    (bi.efi_bs_not_exited = false ∧ bi.memory_map_tag = none ∧
      ∃ descs r, bi.efi_memory_map_tag = some descs ∧
        ChosenFrom (fun a => a.ty == MEMORY_TYPE_CONVENTIONAL) (fun a => a.page_count) descs r ∧
        s = r.phys_start ∧ e = r.phys_start + r.page_count * 4096 - 1) := by
  obtain ⟨bs, ih64, sdt, ihv, sdtv, exok, pre, mb, efim⟩ := bi
  cases bs with
  | true =>
    cases ih64 with
    | false =>
      simp [start_heap_region] at h
    | true =>
      cases sdt with
      | false =>
        simp [start_heap_region] at h
      | true =>
        cases ihv with
        | false =>
          simp [start_heap_region] at h
        | true =>
          cases sdtv with
          | false =>
            simp [start_heap_region] at h
          | true =>
            cases exok with
            | false =>
              simp [start_heap_region] at h
            | true =>
              cases hp : pickArea (fun a => a.ty == MEMORY_TYPE_CONVENTIONAL)
                  (fun a => a.page_count) pre with
              | none =>
                simp [start_heap_region, hp] at h
              | some r =>
                simp [start_heap_region, hp] at h
                exact Or.inl ⟨rfl, rfl, rfl, r, pickArea_chosen _ _ _ _ hp,
                  h.1.symm, h.2.symm⟩
  | false =>
    cases mb with
    | some areas =>
      cases hp : pickArea (fun a => a.typ == MEMORY_AREA_AVAILABLE) MemoryArea.size areas with
      | none =>
        simp [start_heap_region, hp] at h
      | some r =>
        simp [start_heap_region, hp] at h
        exact Or.inr (Or.inl ⟨rfl, areas, r, rfl, pickArea_chosen _ _ _ _ hp,
          h.1.symm, h.2.symm⟩)
    | none =>
      cases efim with
      | some descs =>
        cases hp : pickArea (fun a => a.ty == MEMORY_TYPE_CONVENTIONAL)
            (fun a => a.page_count) descs with
        | none =>
          simp [start_heap_region, hp] at h
        | some r =>
          simp [start_heap_region, hp] at h
          exact Or.inr (Or.inr ⟨rfl, rfl, descs, r, rfl, pickArea_chosen _ _ _ _ hp,
            h.1.symm, h.2.symm⟩)
      | none =>
        simp [start_heap_region] at h

/-- A bootloader memory map whose first entry is a large reserved area and
whose only available entry is smaller. -/
def exAreasBad : List MemoryArea := [⟨0, 0x3000, 0⟩, ⟨0x8000, 0x1000, 1⟩]

def exBIBad : BootInfo := ⟨false, false, false, false, false, false, [], some exAreasBad, none⟩

/-- Counterexample to claim C2 as stated: the reader does not select the
largest entry of the eligible type. On this map the selected region
(0, 0x3000) comes from the reserved first entry, although an available
entry exists; no available entry yields the selected region. -/
theorem start_heap_region_not_largest_eligible :
    start_heap_region exBIBad = some (0, 0x3000) ∧
    (∃ a ∈ exAreasBad, a.typ = MEMORY_AREA_AVAILABLE) ∧
    (∀ a ∈ exAreasBad, a.typ = MEMORY_AREA_AVAILABLE →
      some (a.start_address, a.end_address) ≠ start_heap_region exBIBad) := by
  decide

def exAreasOk : List MemoryArea := [⟨0, 0x1000, 1⟩, ⟨0x100000, 0x8000, 1⟩]

def exBIOk : BootInfo := ⟨false, false, false, false, false, false, [], some exAreasOk, none⟩

theorem start_heap_region_selection_witness :
    (exBIOk.efi_bs_not_exited = true ∧ exBIOk.efi_ih64 = true ∧ exBIOk.efi_sdt64 = true ∧
      ∃ r, ChosenFrom (fun a => a.ty == MEMORY_TYPE_CONVENTIONAL) (fun a => a.page_count)
          exBIOk.efi_mmap_pre r ∧
        0x100000 = r.phys_start ∧ 0x108000 = r.phys_start + r.page_count * EFI_PAGE_SIZE - 1) ∨
    (exBIOk.efi_bs_not_exited = false ∧
      ∃ areas r, exBIOk.memory_map_tag = some areas ∧
        ChosenFrom (fun a => a.typ == MEMORY_AREA_AVAILABLE) MemoryArea.size areas r ∧
        0x100000 = r.start_address ∧ 0x108000 = r.end_address) ∨
    (exBIOk.efi_bs_not_exited = false ∧ exBIOk.memory_map_tag = none ∧
      ∃ descs r, exBIOk.efi_memory_map_tag = some descs ∧
        ChosenFrom (fun a => a.ty == MEMORY_TYPE_CONVENTIONAL) (fun a => a.page_count) descs r ∧
        0x100000 = r.phys_start ∧ 0x108000 = r.phys_start + r.page_count * 4096 - 1) :=
  start_heap_region_selection exBIOk 0x100000 0x108000 (by decide)

/-- Claim C7 (amended): in the firmware-post-exit branch the reader keeps
a running best initialized to the first map entry and replaces it only by
strictly larger conventional entries, so the chosen entry upper-bounds
every conventional entry by page count (but need not itself be
conventional); the region is `heap_start = phys_start` and the inclusive
end `phys_start + page_count * 4096 - 1`. -/
theorem efi_post_exit_region (bi : BootInfo) (descs : List EfiMemoryDescriptor) (s e : Nat)
    (hbs : bi.efi_bs_not_exited = false) (hmb : bi.memory_map_tag = none)
    (hefi : bi.efi_memory_map_tag = some descs)
    (h : start_heap_region bi = some (s, e)) :
    ∃ r, ChosenFrom (fun a => a.ty == MEMORY_TYPE_CONVENTIONAL) (fun a => a.page_count) descs r ∧
      s = r.phys_start ∧ e = r.phys_start + r.page_count * 4096 - 1 ∧
      (∀ a ∈ descs, a.ty = MEMORY_TYPE_CONVENTIONAL → a.page_count ≤ r.page_count) := by
  unfold start_heap_region at h
  rw [hbs, hmb, hefi] at h
  rw [if_neg (by simp)] at h
  have h2 : (match pickArea (fun a => a.ty == MEMORY_TYPE_CONVENTIONAL)
      (fun a => a.page_count) descs with
    | none => (none : Option (Nat × Nat))
    | some a => some (a.phys_start, a.phys_start + a.page_count * 4096 - 1)) = some (s, e) := h
  cases hp : pickArea (fun a => a.ty == MEMORY_TYPE_CONVENTIONAL) (fun a => a.page_count)
      descs with
  | none =>
    rw [hp] at h2
    cases h2
  | some r =>
    rw [hp] at h2
    have hch := pickArea_chosen _ _ _ _ hp
    injection h2 with h3
    injection h3 with hs he
    refine ⟨r, hch, hs.symm, he.symm, ?_⟩
    intro a ha hconv
    refine hch.1 a ha ?_
    show (a.ty == MEMORY_TYPE_CONVENTIONAL) = true
    rw [hconv]
    exact beq_self_eq_true _

def exDescsBad : List EfiMemoryDescriptor := [⟨0, 0, 8⟩, ⟨7, 0x10000, 2⟩]

def exBIBad7 : BootInfo := ⟨false, false, false, false, false, false, [], none, some exDescsBad⟩

/-- Counterexample to claim C7 as stated: in the post-exit branch the
selected entry is not the largest conventional entry. Here the selected
region (0, 32767) comes from the non-conventional first entry although a
conventional entry exists, and no conventional entry yields the selected
region. -/
theorem efi_post_exit_region_cex :
    start_heap_region exBIBad7 = some (0, 32767) ∧
    (∃ a ∈ exDescsBad, a.ty = MEMORY_TYPE_CONVENTIONAL) ∧
    (∀ a ∈ exDescsBad, a.ty = MEMORY_TYPE_CONVENTIONAL →
      some (a.phys_start, a.phys_start + a.page_count * 4096 - 1) ≠
        start_heap_region exBIBad7) := by
  decide

def exDescsOk : List EfiMemoryDescriptor := [⟨7, 0x1000, 4⟩]

def exBIOk7 : BootInfo := ⟨false, false, false, false, false, false, [], none, some exDescsOk⟩

theorem efi_post_exit_region_witness :
    ∃ r, ChosenFrom (fun a => a.ty == MEMORY_TYPE_CONVENTIONAL) (fun a => a.page_count)
        exDescsOk r ∧
      0x1000 = r.phys_start ∧ 20479 = r.phys_start + r.page_count * 4096 - 1 ∧
      (∀ a ∈ exDescsOk, a.ty = MEMORY_TYPE_CONVENTIONAL → a.page_count ≤ r.page_count) :=
  efi_post_exit_region exBIOk7 exDescsOk 0x1000 20479 rfl rfl rfl (by decide)

/-- All conditions under which the memory-discovery phase of `start`
panics after the boot information has been loaded: in the pre-exit
branch, a required EFI tag is missing, a tag holds a null pointer
(`Handle::from_ptr` or `SystemTable::from_ptr` fails), exiting boot
services fails, or the obtained map is empty; the bootloader memory map
is present but empty; the post-exit firmware map is
present but empty; or no memory-description format is present at all. -/
def RegionHaltCond (bi : BootInfo) : Prop :=
  (bi.efi_bs_not_exited = true ∧
    (bi.efi_ih64 = false ∨ bi.efi_sdt64 = false ∨ bi.efi_ih64_ptr_valid = false ∨
      bi.efi_sdt64_ptr_valid = false ∨ bi.exit_bs_ok = false ∨ bi.efi_mmap_pre = [])) ∨
  (bi.efi_bs_not_exited = false ∧ bi.memory_map_tag = some []) ∨
  (bi.efi_bs_not_exited = false ∧ bi.memory_map_tag = none ∧
    bi.efi_memory_map_tag = some []) ∨
  (bi.efi_bs_not_exited = false ∧ bi.memory_map_tag = none ∧
    bi.efi_memory_map_tag = none)

lemma start_heap_region_none_iff (bi : BootInfo) :
    start_heap_region bi = none ↔ RegionHaltCond bi := by
  obtain ⟨bs, ih64, sdt, ihv, sdtv, exok, pre, mb, efim⟩ := bi
  cases bs with
  | true =>
    cases ih64 with
    | false => simp [start_heap_region, RegionHaltCond]
    | true =>
      cases sdt with
      | false => simp [start_heap_region, RegionHaltCond]
      | true =>
        cases ihv with
        | false => simp [start_heap_region, RegionHaltCond]
        | true =>
          cases sdtv with
          | false => simp [start_heap_region, RegionHaltCond]
          | true =>
            cases exok with
            | false => simp [start_heap_region, RegionHaltCond]
            | true =>
              cases pre with
              | nil => simp [start_heap_region, RegionHaltCond, pickArea]
              | cons x t => simp [start_heap_region, RegionHaltCond, pickArea]
  | false =>
    cases mb with
    | some areas =>
      cases areas with
      | nil => simp [start_heap_region, RegionHaltCond, pickArea]
      | cons x t => simp [start_heap_region, RegionHaltCond, pickArea]
    | none =>
      cases efim with
      | some descs =>
        cases descs with
        | nil => simp [start_heap_region, RegionHaltCond, pickArea]
        | cons x t => simp [start_heap_region, RegionHaltCond, pickArea]
      | none => simp [start_heap_region, RegionHaltCond]

/-- Claim C8 (amended): the memory-discovery phase halts fatally exactly
when the multiboot2 magic does not match, or the boot information fails
to load, or one of the `RegionHaltCond` cases holds - that is, besides
the two cases named by the claim (bad magic, no memory-description format
present), bring-up also halts on a failing boot-information load and, in
the pre-exit branch, on a missing EFI image-handle or system-table tag,
on a null pointer in either tag (`Handle::from_ptr` or
`SystemTable::from_ptr` failing), on a failing `exit_boot_services`, and
on an empty map of the selected format. -/
theorem start_boot_phase_halt_iff (magic : Nat) (boot_info : Option BootInfo) :
    start_boot_phase magic boot_info = none ↔
      (magic ≠ MULTIBOOT2_MAGIC ∨ boot_info = none ∨
        ∃ bi, boot_info = some bi ∧ RegionHaltCond bi) := by
  unfold start_boot_phase
  by_cases hm : magic = MULTIBOOT2_MAGIC
  · rw [if_neg (by simp [hm])]
    cases boot_info with
    | none => simp [hm]
    | some bi => simp [hm, start_heap_region_none_iff]
  · rw [if_pos hm]
    simp [hm]

def exBIEmptyMB : BootInfo := ⟨false, false, false, false, false, false, [], some [], none⟩

/-- Counterexample to claim C8 as stated: with the correct multiboot2
magic and a memory-description format present (the bootloader memory map
tag, here empty), bring-up still halts - so the two error cases named by
the claim are not the only fatal ones. -/
theorem start_boot_phase_halt_cex :
    start_boot_phase MULTIBOOT2_MAGIC (some exBIEmptyMB) = none ∧
    exBIEmptyMB.memory_map_tag ≠ none := by
  decide

theorem start_boot_phase_halt_iff_witness :
    start_boot_phase 0 none = none :=
  (start_boot_phase_halt_iff 0 none).mpr (Or.inr (Or.inl rfl))

/-! ## Nvram allocator (os/kernel/src/memory/nvram_allocator.rs)

The wrapper `NvramAllocator` delegates nonzero-size requests to the
first-fit heap of the external linked_list_allocator crate. That heap is
not part of this repository; it is modelled from the specification. -/

/-- A free block of the first-fit heap. -/
structure Block where
  addr : Nat
  size : Nat
deriving DecidableEq

/-- The lock-guarded heap state: the free blocks, in address order. -/
structure HeapState where
  free : List Block
deriving DecidableEq

/-- `core::alloc::AllocError`, the typed allocation failure. -/
inductive AllocError where
  | allocError
deriving DecidableEq

/-- Round `addr` up to the next multiple of `align`. -/
def align_up (addr align : Nat) : Nat := (addr + align - 1) / align * align

/-- Modelled from the spec: `allocate_first_fit` of the
linked_list_allocator crate (not in src). It searches the free blocks in
address order for the first block whose size and alignment can satisfy
the request, splits it if oversized, and returns the satisfying
sub-range; it fails, leaving the free list unchanged, if no block fits. -/
def allocate_first_fit (free : List Block) (size align : Nat) : Option (Nat × List Block) :=
  match free with
  | [] => none
  | b :: rest =>
      if align_up b.addr align + size ≤ b.addr + b.size then
        some (align_up b.addr align,
          ((if b.addr < align_up b.addr align then
              [⟨b.addr, align_up b.addr align - b.addr⟩] else []) ++
           (if align_up b.addr align + size < b.addr + b.size then
              [⟨align_up b.addr align + size, b.addr + b.size - (align_up b.addr align + size)⟩]
            else [])) ++ rest)
      else
        match allocate_first_fit rest size align with
        | some (a, rest2) => some (a, b :: rest2)
        | none => none

/-- Modelled from the spec: deallocation of the linked_list_allocator
heap (not in src): the block returns to the free set in address order,
coalescing with address-contiguous free neighbors. -/
def insertFree : List Block → Block → List Block
  | [], b => [b]
  | x :: xs, b => if b.addr ≤ x.addr then b :: x :: xs else x :: insertFree xs b

/-- Modelled from the spec: coalesce address-contiguous free neighbors. -/
def coalesce : List Block → List Block
  | [] => []
  | [b] => [b]
  | b1 :: b2 :: rest =>
      if b1.addr + b1.size = b2.addr then coalesce (⟨b1.addr, b1.size + b2.size⟩ :: rest)
      else b1 :: coalesce (b2 :: rest)
termination_by l => l.length

/-- Modelled from the spec: `Heap::deallocate` of the
linked_list_allocator crate (not in src). -/
def heap_deallocate (st : HeapState) (addr size : Nat) : HeapState :=
  ⟨coalesce (insertFree st.free ⟨addr, size⟩)⟩

/-- `NvramAllocator::allocate`: a zero-size request returns the dangling
pointer of the layout (its address is the alignment) with length zero and
does not consult the heap; otherwise the request goes to
`allocate_first_fit` under the lock, a success is returned as an
(address, length) range and a failure becomes `AllocError`. The resulting
heap state is returned alongside. -/
def NvramAllocator.allocate (st : HeapState) (size align : Nat) :
    (Except AllocError (Nat × Nat)) × HeapState :=
  if size = 0 then (Except.ok (align, 0), st)
  else
    match allocate_first_fit st.free size align with
    | some (a, free2) => (Except.ok (a, size), ⟨free2⟩)
    | none => (Except.error AllocError.allocError, st)

/-- `NvramAllocator::deallocate`: only a request with nonzero size is
forwarded to the heap. -/
def NvramAllocator.deallocate (st : HeapState) (ptr size : Nat) : HeapState :=
  if size ≠ 0 then heap_deallocate st ptr size else st

lemma allocate_first_fit_none (size align : Nat) :
    ∀ free : List Block,
      (∀ b ∈ free, ¬ (align_up b.addr align + size ≤ b.addr + b.size)) →
      allocate_first_fit free size align = none := by
  intro free
  induction free with
  | nil => intro _; rfl
  | cons b rest ih =>
    intro hfit
    unfold allocate_first_fit
    rw [if_neg (hfit b (List.mem_cons_self b rest))]
    rw [ih (fun c hc => hfit c (List.mem_cons_of_mem b hc))]

/-- Claim C4: a nonzero-size request that no free block can satisfy - in
particular one whose aligned end would exceed every in-bounds block, and
so `heap_end` - fails with the typed `AllocError` and leaves the
allocator state unchanged. -/
theorem allocate_fail_unchanged (st : HeapState) (size align : Nat) (hsz : size ≠ 0) :
    ((∀ b ∈ st.free, ¬ (align_up b.addr align + size ≤ b.addr + b.size)) →
      NvramAllocator.allocate st size align = (Except.error AllocError.allocError, st)) ∧
    (∀ heap_end, (∀ b ∈ st.free, b.addr + b.size ≤ heap_end) →
      (∀ b ∈ st.free, heap_end < align_up b.addr align + size) →
      NvramAllocator.allocate st size align = (Except.error AllocError.allocError, st)) := by
  constructor
  · intro hfit
    unfold NvramAllocator.allocate
    rw [if_neg hsz, allocate_first_fit_none size align st.free hfit]
  · intro heap_end hin hover
    unfold NvramAllocator.allocate
    rw [if_neg hsz, allocate_first_fit_none size align st.free ?_]
    intro b hb hle
    exact absurd (le_trans hle (hin b hb)) (not_le.mpr (hover b hb))

theorem allocate_fail_unchanged_witness :
    NvramAllocator.allocate ⟨[⟨0x1000, 16⟩]⟩ 32 8 =
      (Except.error AllocError.allocError, ⟨[⟨0x1000, 16⟩]⟩) :=
  (allocate_fail_unchanged ⟨[⟨0x1000, 16⟩]⟩ 32 8 (by decide)).1 (by decide)

/-- Claim C5: a zero-size request always succeeds with a non-null
(equal to the alignment, hence positive) zero-length result; it does not
consult or change the heap state, so it also works before `init`, on the
empty placeholder state, and its result is independent of the state. -/
theorem allocate_zero_size (st : HeapState) (align : Nat) (h : 0 < align) :
    NvramAllocator.allocate st 0 align = (Except.ok (align, 0), st) ∧
    align ≠ 0 ∧
    (∀ st2 : HeapState,
      (NvramAllocator.allocate st2 0 align).1 = (NvramAllocator.allocate st 0 align).1) := by
  refine ⟨rfl, Nat.pos_iff_ne_zero.mp h, fun st2 => rfl⟩

theorem allocate_zero_size_witness :
    NvramAllocator.allocate ⟨[]⟩ 0 16 = (Except.ok (16, 0), ⟨[]⟩) :=
  (allocate_zero_size ⟨[]⟩ 16 (by decide)).1

lemma allocate_first_fit_aligned (size align : Nat) (_hal : 0 < align) :
    ∀ (free : List Block) (a : Nat) (free2 : List Block),
      allocate_first_fit free size align = some (a, free2) → a % align = 0 := by
  intro free
  induction free with
  | nil =>
    intro a free2 h
    cases h
  | cons b rest ih =>
    intro a free2 h
    unfold allocate_first_fit at h
    by_cases hfit : align_up b.addr align + size ≤ b.addr + b.size
    · rw [if_pos hfit] at h
      injection h with h2
      injection h2 with ha _
      rw [← ha]
      unfold align_up
      exact Nat.mul_mod_left _ _
    · rw [if_neg hfit] at h
      cases hrec : allocate_first_fit rest size align with
      | none =>
        rw [hrec] at h
        cases h
      | some p =>
        rw [hrec] at h
        obtain ⟨a2, rest2⟩ := p
        injection h with h2
        injection h2 with ha _
        rw [← ha]
        exact ih a2 rest2 hrec

/-- Claim C6: with a power-of-two alignment, every successful allocation
returns an address aligned to it - the zero-size branch returns the
alignment itself and the first-fit branch returns an aligned-up block
address - so `allocate` never returns a misaligned address. -/
theorem allocate_aligned (st : HeapState) (size align k : Nat) (hal : align = 2 ^ k)
    (addr len : Nat) (st2 : HeapState)
    (h : NvramAllocator.allocate st size align = (Except.ok (addr, len), st2)) :
    addr % align = 0 := by
  have hpos : 0 < align := by
    rw [hal]
    exact Nat.pos_pow_of_pos k (by decide)
  unfold NvramAllocator.allocate at h
  by_cases hsz : size = 0
  · rw [if_pos hsz] at h
    injection h with h1 _
    injection h1 with h2
    injection h2 with ha _
    rw [← ha]
    exact Nat.mod_self align
  · rw [if_neg hsz] at h
    cases hff : allocate_first_fit st.free size align with
    | none =>
      rw [hff] at h
      cases h
    | some p =>
      rw [hff] at h
      obtain ⟨a2, free2⟩ := p
      injection h with h1 _
      injection h1 with h2
      injection h2 with ha _
      rw [← ha]
      exact allocate_first_fit_aligned size align hpos st.free a2 free2 hff

theorem allocate_aligned_witness : (0x1000 : Nat) % 4 = 0 :=
  allocate_aligned ⟨[⟨0x1000, 0x100⟩]⟩ 8 4 2 rfl 0x1000 8 ⟨[⟨0x1008, 0xF8⟩]⟩ rfl

/-- Claim C10: a zero-size deallocation leaves the allocator state
completely unchanged and is never forwarded to the underlying heap,
whatever the pointer; a nonzero-size deallocation is exactly a forward to
the heap. -/
theorem deallocate_zero_size (st : HeapState) (ptr : Nat) :
    NvramAllocator.deallocate st ptr 0 = st ∧
    (∀ size, size ≠ 0 → NvramAllocator.deallocate st ptr size = heap_deallocate st ptr size) := by
  constructor
  · rfl
  · intro size hsz
    unfold NvramAllocator.deallocate
    rw [if_pos hsz]

theorem deallocate_zero_size_witness :
    NvramAllocator.deallocate ⟨[⟨0, 64⟩]⟩ 5 0 = (⟨[⟨0, 64⟩]⟩ : HeapState) ∧
    NvramAllocator.deallocate ⟨[⟨0, 64⟩]⟩ 5 4 = heap_deallocate ⟨[⟨0, 64⟩]⟩ 5 4 :=
  ⟨(deallocate_zero_size ⟨[⟨0, 64⟩]⟩ 5).1, (deallocate_zero_size ⟨[⟨0, 64⟩]⟩ 5).2 4 (by decide)⟩

/-! ## Syscall result conversion (os/library/syscall/src/lib.rs) -/

/-- `convert_syscall_codes_to_result`: convert the two raw return values
of a syscall to a `Result`, using `is_ok_f` to pick the branch, `ok_f`
for the `Ok` payload and `err_f` for the `Err` payload. As in the
source, the branch taken when `is_ok_f` returns true is the `Err`
branch. -/
def convert_syscall_codes_to_result {T E : Type} (code val : Nat)
    (is_ok_f : Nat → Nat → Bool) (ok_f : Nat → Nat → T) (err_f : Nat → Nat → E) :
    Except E T :=
  if is_ok_f code val then Except.error (err_f code val)
  else Except.ok (ok_f code val)

/-- Claim C9: for every code/value pair and every triple of functions,
the result is `Err (err_f code val)` exactly when `is_ok_f code val` is
true, and `Ok (ok_f code val)` exactly when it is false: the branch
selected by the predicate named `is_ok` is the error branch. -/
theorem convert_syscall_codes_spec {T E : Type} (code val : Nat)
    (is_ok_f : Nat → Nat → Bool) (ok_f : Nat → Nat → T) (err_f : Nat → Nat → E) :
    (∀ e : E, convert_syscall_codes_to_result code val is_ok_f ok_f err_f = Except.error e ↔
      (is_ok_f code val = true ∧ e = err_f code val)) ∧
    (∀ t : T, convert_syscall_codes_to_result code val is_ok_f ok_f err_f = Except.ok t ↔
      (is_ok_f code val = false ∧ t = ok_f code val)) := by
  unfold convert_syscall_codes_to_result
  cases h : is_ok_f code val with
  | true =>
    constructor
    · intro e
      rw [if_pos rfl]
      constructor
      · intro he
        exact ⟨rfl, (Except.error.inj he).symm⟩
      · intro ⟨_, he⟩
        rw [he]
    · intro t
      rw [if_pos rfl]
      constructor
      · intro ht
        cases ht
      · intro ⟨hf, _⟩
        cases hf
  | false =>
    constructor
    · intro e
      rw [if_neg (by simp)]
      constructor
      · intro he
        cases he
      · intro ⟨hf, _⟩
        cases hf
    · intro t
      rw [if_neg (by simp)]
      constructor
      · intro ht
        exact ⟨rfl, (Except.ok.inj ht).symm⟩
      · intro ⟨_, ht⟩
        rw [ht]

theorem convert_syscall_codes_spec_witness :
    convert_syscall_codes_to_result 1 7 (fun c _ => decide (c ≠ 0)) (fun _ v => v)
      (fun c _ => c) = Except.error 1 :=
  ((convert_syscall_codes_spec 1 7 (fun c _ => decide (c ≠ 0)) (fun _ v => v)
    (fun c _ => c)).1 1).mpr ⟨by decide, rfl⟩
